import Mathlib

/-! go-redis: the session loop, dispatch and argument parsing.

A shallow embedding of `redis/server.go`, `redis/func.go`,
`redis/server_core_commands.go` and the set commands of the example server,
`examples/go-redis-server/server/set.go`.

These files use the `proto` package (messages, the array cursor, the error
sentinels), `redis/errors.go` and the message codec, which are not among them.
The part of `proto` and of the errors that the code relies on is written down
in the first sections, each definition saying where it comes from; the codec
and `executeCommand` are parameters of the session loop.
-/

namespace Redis

/-! ## Errors -/

/-- Modelled from the spec: the error values of `proto` and `redis/errors.go`,
which are missing from the sources. `ErrEOM` is the end-of-message sentinel of
the argument cursor, `errQuit` the quit sentinel, `errSystem` the system error;
`conversion` is the failure of a cursor conversion (`String()`, `Integer()`,
`Array()`) on the element `what`; `missingArgument` is the value built by
`newMissingArgumentError(cmd, param, err)`, which names the verb and the
parameter and keeps the error it was built from; `other` is any further error (a
handler error, an unknown command, a parser error). -/
inductive Error
  | ErrEOM
  | errQuit
  | errSystem
  | conversion (what : String)
  | missingArgument (cmd : String) (param : String) (cause : Error)
  | other (text : String)
  deriving DecidableEq, Repr

namespace Error

/-- Modelled from the spec: Go's `errors.Is(err, target)`: `err` is `target`, or
the error `err` was built from is (a missing-argument error keeps its cause). -/
def Is : Error → Error → Bool
  | missingArgument cmd param cause, target =>
      decide (missingArgument cmd param cause = target) || Is cause target
  | err, target => decide (err = target)

end Error

/-- Modelled from the spec: the error kinds of the error taxonomy that the
argument parsers can produce. -/
inductive ErrorKind
  | endOfMessage
  | wrongArgumentType
  | missingArgument
  | quit
  | system
  | other
  deriving DecidableEq, Repr

/-- Modelled from the spec: the kind of an error value is the kind of the value
itself, not of the error it was built from. -/
def Error.kind : Error → ErrorKind
  | .ErrEOM => .endOfMessage
  | .errQuit => .quit
  | .errSystem => .system
  | .conversion _ => .wrongArgumentType
  | .missingArgument _ _ _ => .missingArgument
  | .other _ => .other

/-- Modelled from the spec: `newMissingArgumentError(cmd, arg, err)` of
`redis/errors.go`. -/
def newMissingArgumentError (cmd : String) (param : String) (err : Error) : Error :=
  .missingArgument cmd param err

/-! ## Messages and the argument cursor (`proto`) -/

namespace proto

/-- Modelled from the spec: a RESP message, a tagged union of simple string,
error, integer, bulk string and array. An array message carries its elements
and the zero-based read index of its cursor. The null bulk and the null array
are left out: the spec does not say what the cursor operations do with them. -/
inductive Message
  | string (text : String)
  | error (text : String)
  | integer (value : Int)
  | bulk (text : String)
  | array (msgs : List Message) (index : Nat)

/-- Modelled from the spec: the argument cursor, `proto.Array`: the request
array and a zero-based read index. -/
structure Array where
  msgs : List Message
  index : Nat

/-- Modelled from the spec: `msg.IsArray()`. -/
def Message.IsArray : Message → Bool
  | .array _ _ => true
  | _ => false

/-- Modelled from the spec: `msg.Array()`, the array of an array message (with
its cursor), an error for every other variant. -/
def Message.Array : Message → Except Error Array
  | .array msgs index => .ok ⟨msgs, index⟩
  | _ => .error (.conversion "array")

/-- Modelled from the spec: `msg.String()`, the element interpreted as text, or
an error. The text-carrying variants give their text. -/
def Message.String : Message → Except Error String
  | .string text => .ok text
  | .error text => .ok text
  | .bulk text => .ok text
  | .integer _ => .error (.conversion "string")
  | .array _ _ => .error (.conversion "string")

/-- Modelled from the spec: the decimal value of a non-empty run of digits. -/
def decimal : List Char → Option Nat
  | [] => none
  | ds => ds.foldl
      (fun acc c => acc.bind fun n => if c.isDigit then some (10 * n + (c.toNat - 48)) else none)
      (some 0)

/-- Modelled from the spec: text parsed as a signed 64-bit decimal integer
(an optional sign, then digits; out of range is a failure). -/
def parseInt64 (text : String) : Option Int :=
  match text.data with
  | '-' :: ds => (decimal ds).bind fun n => if n ≤ 2 ^ 63 then some (-(n : Int)) else none
  | '+' :: ds => (decimal ds).bind fun n => if n < 2 ^ 63 then some (n : Int) else none
  | ds => (decimal ds).bind fun n => if n < 2 ^ 63 then some (n : Int) else none

/-- Modelled from the spec: `msg.Integer()`, the element parsed as a signed
64-bit integer, or an error. -/
def Message.Integer : Message → Except Error Int
  | .integer value => .ok value
  | .string text | .bulk text =>
      match parseInt64 text with
      | some value => .ok value
      | none => .error (.conversion "integer")
  | .error _ => .error (.conversion "integer")
  | .array _ _ => .error (.conversion "integer")

/-- Modelled from the spec: `array.Next()`, the next message, or the
end-of-message sentinel when the read index is past the last element. A
successful read moves the index one element on. -/
def Array.Next (array : Array) : Except Error Message × Array :=
  match array.msgs[array.index]? with
  | none => (.error .ErrEOM, array)
  | some msg => (.ok msg, { array with index := array.index + 1 })

/-- Modelled from the spec: `array.NextString()`, the next element interpreted
as text, or an error; as a Go pair, whose string is empty when the error is
set. -/
def Array.NextString (array : Array) : (String × Option Error) × Array :=
  match array.Next with
  | (.error err, array) => (("", some err), array)
  | (.ok msg, array) =>
      match msg.String with
      | .ok text => ((text, none), array)
      | .error err => (("", some err), array)

/-- Modelled from the spec: `array.NextInteger()`, the next element parsed as a
signed 64-bit integer, or an error; as a Go pair. -/
def Array.NextInteger (array : Array) : (Int × Option Error) × Array :=
  match array.Next with
  | (.error err, array) => ((0, some err), array)
  | (.ok msg, array) =>
      match msg.Integer with
      | .ok value => ((value, none), array)
      | .error err => ((0, some err), array)

/-- The number of elements the cursor has not read yet. -/
def Array.remaining (array : Array) : Nat := array.msgs.length - array.index

end proto

/-! ## Go maps -/

/-- A Go map with string keys: at most one entry per key. -/
structure GoMap (α : Type) where
  entries : List (String × α)
  deriving DecidableEq

namespace GoMap

variable {α : Type}

/-- The empty map, `map[string]T{}`. -/
def empty : GoMap α := ⟨[]⟩

/-- Assignment into a list of entries: the entry of `key` is replaced, or a new
one is added. -/
def setEntries (key : String) (val : α) : List (String × α) → List (String × α)
  | [] => [(key, val)]
  | (k, v) :: rest =>
      if k = key then (key, val) :: rest else (k, v) :: setEntries key val rest

/-- The assignment `m[key] = val`. -/
def set (m : GoMap α) (key : String) (val : α) : GoMap α := ⟨setEntries key val m.entries⟩

/-- The lookup `m[key]`, with the "comma ok" result as an option. -/
def get (m : GoMap α) (key : String) : Option α := m.entries.lookup key

/-- The keys of the map. -/
def keys (m : GoMap α) : List String := m.entries.map Prod.fst

end GoMap

/-! ## Option records and handler calls -/

/-- The record `SetOption`; durations and times are numbers. -/
structure SetOption where
  NX : Bool
  XX : Bool
  EX : Nat
  PX : Nat
  EXAT : Nat
  PXAT : Nat
  KEEPTTL : Bool
  GET : Bool
  deriving DecidableEq

/-- The record `MSetOption`. -/
structure MSetOption where
  NX : Bool
  deriving DecidableEq

/-- The record `HMSetOption`, an empty placeholder. -/
structure HMSetOption where
  deriving DecidableEq

/-- The handler call an executor ends in: the method and the arguments it is
given (the session context is passed through unchanged and left out). -/
inductive Call
  | Select (id : Int)
  | Set (key : String) (val : String) (opt : SetOption)
  | HMSet (hash : String) (dir : GoMap String) (opt : HMSetOption)
  | MSet (dir : GoMap String) (opt : MSetOption)
  deriving DecidableEq

/-- What an executor does once it has read its arguments: `fail err` is
`return nil, err` (no handler is called), `call c` is `return handler.M(...)`. -/
inductive Outcome
  | fail (err : Error)
  | call (c : Call)
  deriving DecidableEq

/-- An executor: the clock reading of `time.Now()`, the verb and the argument
cursor give the outcome and the cursor as the executor leaves it. -/
abbrev Executor := Nat → String → proto.Array → Outcome × proto.Array

/-! ## Argument parsers (`redis/func.go`, and the same closures in
`redis/server_core_commands.go`) -/

open proto in
/-- The parser `parseHashArg`. -/
def parseHashArg (cmd : String) (args : Array) : (String × Option Error) × Array :=
  match args.NextString with
  | ((_, some err), args) => (("", some (newMissingArgumentError cmd "hash" err)), args)
  | ((hash, none), args) => ((hash, none), args)

open proto in
/-- The parser `parseSetArgs`. -/
def parseSetArgs (cmd : String) (args : Array) : (String × String × Option Error) × Array :=
  match args.NextString with
  | ((_, some err), args) => (("", "", some (newMissingArgumentError cmd "key" err)), args)
  | ((key, none), args) =>
      match args.NextString with
      | ((_, some err), args) => (("", "", some (newMissingArgumentError cmd "value" err)), args)
      | ((val, none), args) => ((key, val, none), args)

open proto in
/-- The loop `for err == nil { ... }` of `parseMSetArgs`, entered with the
values of `dir`, `key`, `err` and the cursor; it gives `dir`, `err` and the
cursor as they are when the loop is left. -/
def parseMSetArgs.loop (cmd : String) (dir : GoMap String) (key : String)
    (err : Option Error) (args : Array) : GoMap String × Option Error × Array :=
  match err with
  | some err => (dir, some err, args)
  | none =>
      match h1 : args.NextString with
      | ((val, err1), args1) =>
          -- the error built here is dropped: the statement has no return
          let _dropped := err1.map (newMissingArgumentError cmd key)
          let dir := dir.set key val
          match h2 : args1.NextString with
          | ((key, err2), args2) => parseMSetArgs.loop cmd dir key err2 args2
termination_by (if err.isSome then 0 else args.remaining + 1)
decreasing_by
  have hstep : ∀ (a : Array), a.NextString.2.remaining ≤ a.remaining ∧
      (a.NextString.1.2 = none → a.NextString.2.remaining < a.remaining) := by
    intro a
    unfold Array.NextString Array.Next
    cases hget : a.msgs[a.index]? with
    | none => simp
    | some msg =>
      have hlt : a.index < a.msgs.length := by
        by_contra hcon
        rw [List.getElem?_eq_none (Nat.le_of_not_lt hcon)] at hget
        cases hget
      simp only []
      cases hs : msg.String <;> simp only [Array.remaining] <;> constructor <;> intros <;> omega
  have hle := (hstep args).1
  rw [h1] at hle
  cases err2 with
  | some e => simp
  | none =>
    have hlt := (hstep args1).2
    rw [h2] at hlt
    have := hlt rfl
    simp only [Option.isSome_none, Bool.false_eq_true, if_false] at *
    omega

open proto in
/-- The parser `parseMSetArgs`; the nil map returned with an error is the empty
map. -/
def parseMSetArgs (cmd : String) (args : Array) :
    (GoMap String × Option Error) × Array :=
  let dir : GoMap String := GoMap.empty
  match args.NextString with
  | ((key, err), args) =>
      match parseMSetArgs.loop cmd dir key err args with
      | (dir, err, args) =>
          match err with
          | some err =>
              if !(err.Is .ErrEOM) then ((GoMap.empty, some err), args) else ((dir, none), args)
          | none => ((dir, none), args)

/-- The elements `k1 v1 ... kn vn` of a cursor, read as strings: the messages
come in pairs, each of which gives its text. -/
def StringArgs : List proto.Message → List (String × String) → Prop
  | [], [] => True
  | mk :: mv :: msgs, (key, val) :: kvs =>
      mk.String = .ok key ∧ mv.String = .ok val ∧ StringArgs msgs kvs
  | _, _ => False

/-- The map built by assigning the pairs of a list in order. -/
def assignAll (dir : GoMap String) (kvs : List (String × String)) : GoMap String :=
  kvs.foldl (fun d kv => d.set kv.1 kv.2) dir

/-! ## Executors (`redis/server_core_commands.go`) -/

open proto in
/-- The executor registered under `SELECT`. -/
def execSELECT : Executor := fun _now cmd args =>
  match args.NextInteger with
  | ((_, some err), args) => (.fail (newMissingArgumentError cmd "id" err), args)
  | ((id, none), args) => (.call (.Select id), args)

/-- The executor registered under `SET`. -/
def execSET : Executor := fun now cmd args =>
  let opt : SetOption :=
    { NX := false, XX := false, EX := 0, PX := 0, EXAT := now, PXAT := now,
      KEEPTTL := false, GET := false }
  match parseSetArgs cmd args with
  | ((_, _, some err), args) => (.fail err, args)
  | ((key, val, none), args) => (.call (.Set key val opt), args)

/-- The executor registered under `SETNX`. -/
def execSETNX : Executor := fun now cmd args =>
  let opt : SetOption :=
    { NX := true, XX := false, EX := 0, PX := 0, EXAT := now, PXAT := now,
      KEEPTTL := false, GET := false }
  match parseSetArgs cmd args with
  | ((_, _, some err), args) => (.fail err, args)
  | ((key, val, none), args) => (.call (.Set key val opt), args)

/-- The executor registered under `GETSET`. -/
def execGETSET : Executor := fun now cmd args =>
  let opt : SetOption :=
    { NX := false, XX := false, EX := 0, PX := 0, EXAT := now, PXAT := now,
      KEEPTTL := false, GET := true }
  match parseSetArgs cmd args with
  | ((_, _, some err), args) => (.fail err, args)
  | ((key, val, none), args) => (.call (.Set key val opt), args)

/-- The executor registered under `HMSET`. -/
def execHMSET : Executor := fun _now cmd args =>
  let opt : HMSetOption := {}
  match parseHashArg cmd args with
  | ((_, some err), args) => (.fail err, args)
  | ((hash, none), args) =>
      match parseMSetArgs cmd args with
      | ((_, some err), args) => (.fail err, args)
      | ((dir, none), args) => (.call (.HMSet hash dir opt), args)

/-- The executor registered under `MSET`. -/
def execMSET : Executor := fun _now cmd args =>
  let opt : MSetOption := { NX := false }
  match parseMSetArgs cmd args with
  | ((_, some err), args) => (.fail err, args)
  | ((dir, none), args) => (.call (.MSet dir opt), args)

/-- The executor registered under `MSETNX`. -/
def execMSETNX : Executor := fun _now cmd args =>
  let opt : MSetOption := { NX := true }
  match parseMSetArgs cmd args with
  | ((_, some err), args) => (.fail err, args)
  | ((dir, none), args) => (.call (.MSet dir opt), args)

/-! ## The server and the session loop (`redis/server.go`) -/

/-- The message type `redis.Message`. -/
abbrev Message := proto.Message

/-- The server: the address, the port and the executor registry (the listener,
the tracer and the handler references play no part below). -/
structure Server where
  Addr : String
  Port : Nat
  commandExecutors : GoMap Executor

/-- The method `RegisterExexutor`: sets a command executor. -/
def Server.RegisterExexutor (server : Server) (cmd : String) (executor : Executor) : Server :=
  { server with commandExecutors := server.commandExecutors.set cmd executor }

/-- The parts of the message codec that the session loop calls and that are
not in the sources, taken as parameters: `NewErrorMessage(err)`, and the two
serialisers `msg.RESPBytes()` and `msg.Bytes()`, each of which may fail. The
bytes of the wire are text. -/
structure Codec where
  NewErrorMessage : Error → Message
  RESPBytes : Message → Except Error String
  Bytes : Message → Except Error String

/-- A call made on the write half of a connection: `Write(bytes)` or
`Close()`. -/
inductive ConnCall
  | Write (bytes : String)
  | Close
  deriving DecidableEq

/-- The write half of a connection: the calls made on it, in the order they
were made. -/
structure NetConn where
  calls : List ConnCall
  deriving DecidableEq

/-- The call `conn.Write(bytes)`. -/
def NetConn.Write (conn : NetConn) (bytes : String) : NetConn :=
  { conn with calls := conn.calls ++ [ConnCall.Write bytes] }

/-- The call `conn.Close()`. -/
def NetConn.Close (conn : NetConn) : NetConn :=
  { conn with calls := conn.calls ++ [ConnCall.Close] }

/-- The byte strings handed to `Write`, in order. -/
def NetConn.written (conn : NetConn) : List String :=
  conn.calls.filterMap fun call =>
    match call with
    | ConnCall.Write bytes => some bytes
    | ConnCall.Close => none

/-- Whether `Close` has been called. -/
def NetConn.closed (conn : NetConn) : Bool :=
  decide (ConnCall.Close ∈ conn.calls)

/-- One result of `parser.Next()`: the message and the error, either of which
may be nil. -/
abbrev Pull := Option Message × Option Error

/-- The stream parser over the read half of a connection, as the results its
`Next` will give; once they are used up there is no message any more. -/
structure Parser where
  pulls : List Pull

/-- The call `parser.Next()`. -/
def Parser.Next (parser : Parser) : Pull × Parser :=
  match parser.pulls with
  | [] => ((none, none), parser)
  | pull :: rest => (pull, ⟨rest⟩)

/-- The method `executeCommand`, which is not in the sources, as a parameter:
from the state of the session and of the handlers, the verb and the argument
cursor, to the response, the error and the new state. -/
abbrev Dispatch (σ : Type) := σ → String → proto.Array → (Option Message × Option Error) × σ

section

variable {σ : Type}

open proto in
/-- The method `handleArrayMessage`. -/
def handleArrayMessage (executeCommand : Dispatch σ) (s : σ) (arrayMsg : Array) :
    (Option Message × Option Error) × σ :=
  match hnext : arrayMsg.Next with
  | (.error err, _) => ((none, some err), s)
  | (.ok firstMsg, arrayMsg1) =>
      -- Nested array ?
      if firstMsg.IsArray then
        match harr : firstMsg.Array with
        | .error err => ((none, some err), s)
        | .ok nestedArrayMsg => handleArrayMessage executeCommand s nestedArrayMsg
      else
        match firstMsg.String with
        | .error err => ((none, some err), s)
        | .ok cmd => executeCommand s cmd arrayMsg1
termination_by sizeOf arrayMsg.msgs
decreasing_by
  unfold Array.Next at hnext
  cases hget : arrayMsg.msgs[arrayMsg.index]? with
  | none => simp [hget] at hnext
  | some msg =>
    simp only [hget, Prod.mk.injEq, Except.ok.injEq] at hnext
    have hmem : firstMsg ∈ arrayMsg.msgs := by
      rw [← hnext.1]
      exact List.getElem?_mem hget
    have h1 := List.sizeOf_lt_of_mem hmem
    cases firstMsg with
    | array msgs index =>
      simp only [proto.Message.Array, Except.ok.injEq] at harr
      rw [← harr]
      have h2 : sizeOf (proto.Message.array msgs index) = 1 + sizeOf msgs + sizeOf index := by
        simp
      simp only
      omega
    | _ => simp [proto.Message.Array] at harr

/-- The method `handleMessage`. -/
def handleMessage (executeCommand : Dispatch σ) (s : σ) (msg : Message) :
    (Option Message × Option Error) × σ :=
  match msg with
  | .string _ => ((none, none), s)
  | .integer _ => ((none, none), s)
  | .bulk _ => ((none, none), s)
  | .array msgs index =>
      match (proto.Message.array msgs index).Array with
      | .error err => ((none, some err), s)
      | .ok arrayMsg => handleArrayMessage executeCommand s arrayMsg
  | .error _ => ((none, none), s)

/-- The method `responseMessage`: the error it returns, and the connection. -/
def responseMessage (codec : Codec) (conn : NetConn) (msg : Option Message) :
    Option Error × NetConn :=
  let encoded : Except Error String :=
    match msg with
    | some msg => codec.RESPBytes msg
    | none => codec.Bytes (codec.NewErrorMessage .errSystem)
  match encoded with
  | .error err => (some err, conn)
  | .ok bytes => (none, conn.Write bytes)

/-- What `receive` leaves behind: the error it returns, the connection, and
the state of the session and of the handlers. -/
structure Session (σ : Type) where
  err : Option Error
  conn : NetConn
  state : σ

/-- The loop `for reqMsg != nil { ... }` of `receive`, entered with the last
result of `parser.Next()`. -/
def receive.loop (codec : Codec) (executeCommand : Dispatch σ) (s : σ) (conn : NetConn)
    (reqMsg : Option Message) (parserErr : Option Error) (parser : Parser) : Session σ :=
  match reqMsg with
  | none => ⟨none, conn, s⟩
  | some reqMsg =>
      match parserErr with
      | some parserErr => ⟨some parserErr, conn, s⟩
      | none =>
          match handleMessage executeCommand s reqMsg with
          | ((resMsg, reqErr), s) =>
              let resMsg : Option Message :=
                match reqErr with
                | some reqErr =>
                    if !(reqErr.Is .errQuit) then some (codec.NewErrorMessage reqErr) else resMsg
                | none => resMsg
              match responseMessage codec conn resMsg with
              | (_resErr, conn) =>
                  if (reqErr.map (fun e => e.Is .errQuit)).getD false then
                    ⟨none, conn.Close, s⟩
                  else
                    match hp : parser.Next with
                    | ((reqMsg, parserErr), parser1) =>
                        receive.loop codec executeCommand s conn reqMsg parserErr parser1
termination_by parser.pulls.length + (if reqMsg.isSome then 1 else 0)
decreasing_by
  unfold Parser.Next at hp
  cases hpulls : parser.pulls with
  | nil =>
    simp only [hpulls, Prod.mk.injEq] at hp
    rw [← hp.1.1, ← hp.2, hpulls]
    simp
  | cons pull rest =>
    simp only [hpulls, Prod.mk.injEq] at hp
    rw [← hp.2]
    simp only [List.length_cons, Option.isSome_some, if_true]
    split <;> omega

/-- The method `receive`: handles a client connection. The deferred
`conn.Close()` runs on every return. -/
def receive (codec : Codec) (executeCommand : Dispatch σ) (s : σ) (conn : NetConn)
    (parser : Parser) : Session σ :=
  match parser.Next with
  | ((reqMsg, parserErr), parser) =>
      let session := receive.loop codec executeCommand s conn reqMsg parserErr parser
      { session with conn := session.conn.Close }

/-! ## Notions used to state the properties of the loop -/

/-- The array `inner` is reached from `outer` by `depth` unwrappings: each time
the element under the cursor is an array, which is taken in its place. -/
def NestedAt : Nat → proto.Array → proto.Array → Prop
  | 0, outer, inner => outer = inner
  | depth + 1, outer, inner =>
      ∃ (msg : proto.Message) (next : proto.Array),
        outer.msgs[outer.index]? = some msg ∧ msg.Array = .ok next ∧ NestedAt depth next inner

/-- Modelled from the spec: the text of an error, `err.Error()`. The spec fixes
no wording; a missing-argument error names the verb and the parameter. -/
def Error.Error : Error → String
  | .ErrEOM => "EOM"
  | .errQuit => "quit"
  | .errSystem => "system error"
  | .conversion what => "not " ++ what
  | .missingArgument cmd param cause => cmd ++ " missing argument " ++ param ++ ": " ++ cause.Error
  | .other text => text

mutual

/-- Modelled from the spec: the RESP encoder, one frame per message: the prefix
byte of the variant, the payload (for a bulk string or an array its length
first), and CR LF. -/
def RESPBytes : Message → String
  | .string text => "+" ++ text ++ "\r\n"
  | .error text => "-" ++ text ++ "\r\n"
  | .integer value => ":" ++ toString value ++ "\r\n"
  | .bulk text => "$" ++ toString text.utf8ByteSize ++ "\r\n" ++ text ++ "\r\n"
  | .array msgs _ => "*" ++ toString msgs.length ++ "\r\n" ++ RESPBytesAll msgs

/-- Modelled from the spec: the frames of the elements of an array, one after
the other. -/
def RESPBytesAll : List Message → String
  | [] => ""
  | msg :: msgs => RESPBytes msg ++ RESPBytesAll msgs

end

/-- Modelled from the spec: the codec, whose encoder never fails and whose
error messages carry the text of the error. The spec has one encoder, so both
serialisers are it. -/
def specCodec : Codec where
  NewErrorMessage := fun err => .error err.Error
  RESPBytes := fun msg => .ok (RESPBytes msg)
  Bytes := fun msg => .ok (RESPBytes msg)

/-- Modelled from the spec: dispatch of the system verbs `PING` and `QUIT`,
every other verb being unknown; the state counts the dispatched requests.
`QUIT` answers `OK` and raises the quit sentinel. -/
def systemDispatch : Dispatch Nat := fun s cmd _args =>
  if cmd = "PING" then ((some (.string "PONG"), none), s + 1)
  else if cmd = "QUIT" then ((some (.string "OK"), some .errQuit), s + 1)
  else ((none, some (.other ("unknown command " ++ cmd))), s + 1)

end

/-! ## The set commands of the example server
(`examples/go-redis-server/server/set.go`) -/

/-- Modelled from the spec: `redis.NewIntegerMessage(value)`, the Integer
message of a value. -/
def NewIntegerMessage (value : Int) : Message := .integer value

namespace server

/-- The type `Set`: the members, in the order they were added. -/
structure Set where
  members : List String
  deriving DecidableEq

/-- The constructor `NewSet`. -/
def NewSet : Set := { members := [] }

/-- The inner loop of `Set.Add`: every member of the set is compared with
`member`, and `hasMember` is set on a match. -/
def Set.Add.hasMember (members : List String) (member : String) : Bool :=
  members.foldl (fun hasMember set => if set = member then true else hasMember) false

/-- The method `Set.Add`: the count it returns, and the set as it leaves it. -/
def Set.Add (set : Set) (members : List String) : Nat × Set :=
  members.foldl
    (fun (state : Nat × Set) member =>
      let addedMemberCount := state.1
      let set := state.2
      let hasMember := Set.Add.hasMember set.members member
      if hasMember then (addedMemberCount, set)
      else (addedMemberCount + 1, { set with members := set.members ++ [member] }))
    (0, set)

/-- The handler `SAdd`, with the two lookups `GetDatabase` and `GetSetRecord`,
which are not in the sources, as parameters (`SAdd` uses the second result of
`GetSetRecord` as a `*Set`): the reply, and the set of the key as the call
leaves it when it has been reached. -/
def SAdd {Database Record : Type} (GetDatabase : Nat → Except Error Database)
    (GetSetRecord : Database → String → Except Error (Record × Set))
    (ctxID : Nat) (key : String) (members : List String) :
    (Option Message × Option Error) × Option Set :=
  match GetDatabase ctxID with
  | .error err => ((none, some err), none)
  | .ok db =>
      match GetSetRecord db key with
      | .error err => ((none, some err), none)
      | .ok (_, set) =>
          let added := set.Add members
          ((some (NewIntegerMessage added.1), none), some added.2)

/-- Modelled from the spec: a record of the example database, with its
payload `Data`. -/
structure Record where
  Data : List String
  deriving DecidableEq

/-- The inner loop of `SRem`, over the elements of `sets` from the index `n`
on: at the first element equal to `member` the slice becomes
`append(sets[:n], sets[n+1:]...)`, the count goes up by one and the loop is
left. -/
def SRem.scan (member : String) (sets : List String) (removedMemberCount : Nat) :
    Nat → List String → List String × Nat
  | _, [] => (sets, removedMemberCount)
  | n, set :: rest =>
      if set = member then (sets.take n ++ sets.drop (n + 1), removedMemberCount + 1)
      else SRem.scan member sets removedMemberCount (n + 1) rest

/-- The outer loop of `SRem`: the slice and the count after all members. -/
def SRem.loop (sets : List String) (members : List String) : List String × Nat :=
  members.foldl
    (fun (state : List String × Nat) member => SRem.scan member state.1 state.2 0 state.1)
    (sets, 0)

/-- The handler `SRem`, with the two lookups `GetDatabase` and `GetSetRecord`,
which are not in the sources, as parameters (`SRem` uses the second result of
`GetSetRecord` as a slice of strings): the reply, and the record as the call
leaves it when it has been reached. -/
def SRem {Database : Type} (GetDatabase : Nat → Except Error Database)
    (GetSetRecord : Database → String → Except Error (Record × List String))
    (ctxID : Nat) (key : String) (members : List String) :
    (Option Message × Option Error) × Option Record :=
  match GetDatabase ctxID with
  | .error err => ((none, some err), none)
  | .ok db =>
      match GetSetRecord db key with
      | .error err => ((none, some err), none)
      | .ok (record, sets) =>
          let removed := SRem.loop sets members
          let record := { record with Data := removed.1 }
          ((some (NewIntegerMessage removed.2), none), some record)

/-- The sets that can be reached from `NewSet()` by calls of `Add`. -/
inductive Reachable : Set → Prop
  | new : Reachable NewSet
  | add (set : Set) (members : List String) : Reachable set → Reachable (set.Add members).2

end server

/-! ## Reading from the cursor -/

open proto in
/-- Reading an element that is there gives it and moves the index on. -/
theorem Next_some (args : Array) (msg : proto.Message)
    (h : args.msgs[args.index]? = some msg) :
    args.Next = (.ok msg, { args with index := args.index + 1 }) := by
  simp [Array.Next, h]

open proto in
/-- Reading past the last element gives the end-of-message sentinel and leaves
the cursor where it is. -/
theorem Next_none (args : Array) (h : args.msgs[args.index]? = none) :
    args.Next = (.error .ErrEOM, args) := by
  simp [Array.Next, h]

open proto in
/-- Reading a text element as a string. -/
theorem NextString_some (args : Array) (msg : proto.Message) (text : String)
    (h : args.msgs[args.index]? = some msg) (ht : msg.String = .ok text) :
    args.NextString = ((text, none), { args with index := args.index + 1 }) := by
  simp [Array.NextString, Next_some args msg h, ht]

open proto in
/-- Reading a string past the last element. -/
theorem NextString_none (args : Array) (h : args.msgs[args.index]? = none) :
    args.NextString = (("", some .ErrEOM), args) := by
  simp [Array.NextString, Next_none args h]

open proto in
/-- A `NextString` never moves the cursor back. -/
theorem NextString_remaining_le (args : Array) :
    args.NextString.2.remaining ≤ args.remaining := by
  unfold Array.NextString Array.Next
  cases hget : args.msgs[args.index]? with
  | none => simp
  | some msg =>
    simp only []
    cases hs : msg.String <;> simp only [Array.remaining] <;> omega

open proto in
/-- A `NextString` without error moves the cursor on, inside the array. -/
theorem NextString_remaining_lt (args : Array) (h : args.NextString.1.2 = none) :
    args.NextString.2.remaining < args.remaining := by
  unfold Array.NextString Array.Next at h ⊢
  cases hget : args.msgs[args.index]? with
  | none => simp [hget] at h
  | some msg =>
    have hlt : args.index < args.msgs.length := by
      by_contra hcon
      rw [List.getElem?_eq_none (Nat.le_of_not_lt hcon)] at hget
      cases hget
    simp only []
    cases hs : msg.String <;> simp only [Array.remaining] <;> omega

/-! ## The loop of `parseMSetArgs` -/

/-- The loop is left at once when `err` is set. -/
theorem loop_some (cmd : String) (dir : GoMap String) (key : String) (err : Error)
    (args : proto.Array) :
    parseMSetArgs.loop cmd dir key (some err) args = (dir, some err, args) := by
  rw [parseMSetArgs.loop]

/-- One round of the loop: the value is read and stored under the key,
whatever the read gave, and the next key is read. -/
theorem loop_none (cmd : String) (dir : GoMap String) (key : String) (args : proto.Array) :
    parseMSetArgs.loop cmd dir key none args
      = parseMSetArgs.loop cmd (dir.set key args.NextString.1.1)
          args.NextString.2.NextString.1.1 args.NextString.2.NextString.1.2
          args.NextString.2.NextString.2 := by
  rw [parseMSetArgs.loop]

/-- The verb plays no part in what the loop gives. -/
theorem loop_verb (cmd cmd' : String) (n : Nat) :
    ∀ (dir : GoMap String) (key : String) (err : Option Error) (args : proto.Array),
      args.remaining ≤ n →
      parseMSetArgs.loop cmd dir key err args = parseMSetArgs.loop cmd' dir key err args := by
  induction n with
  | zero =>
    intro dir key err args hrem
    cases err with
    | some err => rw [loop_some, loop_some]
    | none =>
      rw [loop_none cmd, loop_none cmd']
      cases herr : args.NextString.2.NextString.1.2 with
      | some err => rw [loop_some, loop_some]
      | none =>
        have h1 := NextString_remaining_le args
        have h2 := NextString_remaining_lt args.NextString.2 herr
        omega
  | succ n ih =>
    intro dir key err args hrem
    cases err with
    | some err => rw [loop_some, loop_some]
    | none =>
      rw [loop_none cmd, loop_none cmd']
      cases herr : args.NextString.2.NextString.1.2 with
      | some err => rw [loop_some, loop_some]
      | none =>
        have h1 := NextString_remaining_le args
        have h2 := NextString_remaining_lt args.NextString.2 herr
        exact ih _ _ _ _ (by omega)

/-- The verb plays no part in what `parseMSetArgs` gives. -/
theorem parseMSetArgs_verb (cmd cmd' : String) (args : proto.Array) :
    parseMSetArgs cmd args = parseMSetArgs cmd' args := by
  simp only [parseMSetArgs]
  rw [loop_verb cmd cmd' _ _ _ _ _ (Nat.le_refl _)]

/-! ## `SET`, `SETNX`, `GETSET` -/

/-- C3: for each of the executors of SET, SETNX and GETSET, run under any verb
`cmd`: a cursor exhausted before the key gives the missing-argument error for
`cmd` and "key" and no handler call; a cursor exhausted after the key gives
the missing-argument error for `cmd` and "value" and no handler call; when key
and value are there as strings, the outcome is the call of `Set` with that key
and that value. -/
theorem set_family_arguments (ex : Executor)
    (hex : ex = execSET ∨ ex = execSETNX ∨ ex = execGETSET)
    (now : Nat) (cmd : String) (args : proto.Array) :
    (args.msgs[args.index]? = none →
      (ex now cmd args).1 = .fail (newMissingArgumentError cmd "key" .ErrEOM)) ∧
    (∀ (mk : proto.Message) (key : String),
      args.msgs[args.index]? = some mk → mk.String = .ok key →
      args.msgs[args.index + 1]? = none →
      (ex now cmd args).1 = .fail (newMissingArgumentError cmd "value" .ErrEOM)) ∧
    (∀ (mk mv : proto.Message) (key val : String),
      args.msgs[args.index]? = some mk → mk.String = .ok key →
      args.msgs[args.index + 1]? = some mv → mv.String = .ok val →
      ∃ opt, (ex now cmd args).1 = .call (.Set key val opt)) := by
  refine ⟨?_, ?_, ?_⟩
  · intro h0
    rcases hex with rfl | rfl | rfl <;>
      simp [execSET, execSETNX, execGETSET, parseSetArgs, NextString_none args h0]
  · intro mk key h0 hk h1
    have hn := NextString_some args mk key h0 hk
    have hn1 := NextString_none { args with index := args.index + 1 } h1
    rcases hex with rfl | rfl | rfl <;>
      simp [execSET, execSETNX, execGETSET, parseSetArgs, hn, hn1]
  · intro mk mv key val h0 hk h1 hv
    have hn := NextString_some args mk key h0 hk
    have hn1 := NextString_some { args with index := args.index + 1 } mv val h1 hv
    rcases hex with rfl | rfl | rfl <;>
      simp [execSET, execSETNX, execGETSET, parseSetArgs, hn, hn1]

/-- C3, on concrete requests: `GETSET` alone, `SETNX k` and `SET k v`. -/
theorem set_family_arguments_witness :
    (execGETSET 7 "GETSET" ⟨[.bulk "GETSET"], 1⟩).1
        = .fail (newMissingArgumentError "GETSET" "key" .ErrEOM) ∧
    (execSETNX 7 "SETNX" ⟨[.bulk "SETNX", .bulk "k"], 1⟩).1
        = .fail (newMissingArgumentError "SETNX" "value" .ErrEOM) ∧
    (∃ opt, (execSET 7 "SET" ⟨[.bulk "SET", .bulk "k", .bulk "v"], 1⟩).1
        = .call (.Set "k" "v" opt)) :=
  ⟨(set_family_arguments execGETSET (Or.inr (Or.inr rfl)) 7 "GETSET"
      ⟨[.bulk "GETSET"], 1⟩).1 rfl,
   (set_family_arguments execSETNX (Or.inr (Or.inl rfl)) 7 "SETNX"
      ⟨[.bulk "SETNX", .bulk "k"], 1⟩).2.1 (.bulk "k") "k" rfl rfl rfl,
   (set_family_arguments execSET (Or.inl rfl) 7 "SET"
      ⟨[.bulk "SET", .bulk "k", .bulk "v"], 1⟩).2.2 (.bulk "k") (.bulk "v") "k" "v"
      rfl rfl rfl rfl⟩

/-! ## `SELECT` -/

/-- C4, as the code has it: when the id of a SELECT request is there but
cannot be decoded as an integer, the executor returns the missing-argument
error for the verb and "id", built from the decoding error, and calls no
handler; that is the error kind returned when the id is absent, where the
error is built from the end-of-message sentinel. -/
theorem select_undecodable_id (now : Nat) (cmd : String) (args : proto.Array)
    (msg : proto.Message) (err : Error)
    (hmsg : args.msgs[args.index]? = some msg) (herr : msg.Integer = .error err) :
    (execSELECT now cmd args).1 = .fail (newMissingArgumentError cmd "id" err) ∧
    (newMissingArgumentError cmd "id" err).kind = ErrorKind.missingArgument ∧
    (∀ absent : proto.Array, absent.msgs[absent.index]? = none →
      (execSELECT now cmd absent).1 = .fail (newMissingArgumentError cmd "id" .ErrEOM) ∧
      (newMissingArgumentError cmd "id" .ErrEOM).kind
        = (newMissingArgumentError cmd "id" err).kind) := by
  refine ⟨?_, rfl, ?_⟩
  · simp [execSELECT, proto.Array.NextInteger, Next_some args msg hmsg, herr]
  · intro absent habsent
    refine ⟨?_, rfl⟩
    simp [execSELECT, proto.Array.NextInteger, Next_none absent habsent]

/-- C4, on the concrete request `SELECT abc`. -/
theorem select_undecodable_id_witness :
    (execSELECT 0 "SELECT" ⟨[.bulk "SELECT", .bulk "abc"], 1⟩).1
      = .fail (newMissingArgumentError "SELECT" "id" (.conversion "integer")) :=
  (select_undecodable_id 0 "SELECT" ⟨[.bulk "SELECT", .bulk "abc"], 1⟩ (.bulk "abc")
    (.conversion "integer") rfl rfl).1

/-- C4 fails as stated: for `SELECT abc` the executor returns an error of the
missing-argument kind, not of the wrong-argument-type kind, and it is the kind
of the error returned for `SELECT` without an id. -/
theorem select_undecodable_id_counterexample :
    (execSELECT 0 "SELECT" ⟨[.bulk "SELECT", .bulk "abc"], 1⟩).1
      = .fail (.missingArgument "SELECT" "id" (.conversion "integer")) ∧
    (execSELECT 0 "SELECT" ⟨[.bulk "SELECT"], 1⟩).1
      = .fail (.missingArgument "SELECT" "id" .ErrEOM) ∧
    (Error.missingArgument "SELECT" "id" (.conversion "integer")).kind
      ≠ ErrorKind.wrongArgumentType ∧
    (Error.missingArgument "SELECT" "id" (.conversion "integer")).kind
      = (Error.missingArgument "SELECT" "id" .ErrEOM).kind := by
  decide

/-! ## Option records -/

/-- C5: when key and value are there as strings, SET, SETNX and GETSET all call
`Set` with that key and that value; SET passes NX, XX, KEEPTTL and GET false and
EX and PX zero, SETNX passes the record of SET with NX true, GETSET the record of
SET with GET true (EXAT and PXAT being the clock reading of each call). For
every cursor, MSET either fails, and MSETNX fails with the same error, or calls
`MSet` with NX false, and MSETNX calls `MSet` with the same map and NX true. -/
theorem sugar_option_records (now nowNX nowGET : Nat) (cmd cmdNX cmdGET : String)
    (args : proto.Array) (mk mv : proto.Message) (key val : String)
    (hk : args.msgs[args.index]? = some mk) (hks : mk.String = .ok key)
    (hv : args.msgs[args.index + 1]? = some mv) (hvs : mv.String = .ok val) :
    (∃ opt : SetOption,
      (execSET now cmd args).1 = .call (.Set key val opt) ∧
      opt.NX = false ∧ opt.XX = false ∧ opt.EX = 0 ∧ opt.PX = 0 ∧
      opt.KEEPTTL = false ∧ opt.GET = false ∧
      (execSETNX nowNX cmdNX args).1
        = .call (.Set key val { opt with NX := true, EXAT := nowNX, PXAT := nowNX }) ∧
      (execGETSET nowGET cmdGET args).1
        = .call (.Set key val { opt with GET := true, EXAT := nowGET, PXAT := nowGET })) ∧
    (∀ margs : proto.Array,
      (∃ err, (execMSET now cmd margs).1 = .fail err ∧
        (execMSETNX nowNX cmdNX margs).1 = .fail err) ∨
      (∃ dir, (execMSET now cmd margs).1 = .call (.MSet dir { NX := false }) ∧
        (execMSETNX nowNX cmdNX margs).1 = .call (.MSet dir { NX := true }))) := by
  have hn := NextString_some args mk key hk hks
  have hn1 := NextString_some { args with index := args.index + 1 } mv val hv hvs
  refine ⟨⟨SetOption.mk false false 0 0 now now false false,
    ?_, rfl, rfl, rfl, rfl, rfl, rfl, ?_, ?_⟩, ?_⟩
  · simp only [execSET, parseSetArgs, hn, hn1]
  · simp only [execSETNX, parseSetArgs, hn, hn1]
  · simp only [execGETSET, parseSetArgs, hn, hn1]
  · intro margs
    have hcmd : parseMSetArgs cmdNX margs = parseMSetArgs cmd margs :=
      parseMSetArgs_verb cmdNX cmd margs
    simp only [execMSET, execMSETNX, hcmd]
    rcases hres : parseMSetArgs cmd margs with ⟨⟨dir, err⟩, rest⟩
    cases err with
    | some err => exact Or.inl ⟨err, rfl, rfl⟩
    | none => exact Or.inr ⟨dir, rfl, rfl⟩

/-- C5, on the concrete arguments `k v`, with the three clock readings 1, 2
and 3. -/
theorem sugar_option_records_witness :
    ∃ opt : SetOption,
      (execSET 1 "SET" ⟨[.bulk "SET", .bulk "k", .bulk "v"], 1⟩).1 = .call (.Set "k" "v" opt) ∧
      opt.NX = false ∧ opt.XX = false ∧ opt.EX = 0 ∧ opt.PX = 0 ∧
      opt.KEEPTTL = false ∧ opt.GET = false ∧
      (execSETNX 2 "SETNX" ⟨[.bulk "SET", .bulk "k", .bulk "v"], 1⟩).1
        = .call (.Set "k" "v" { opt with NX := true, EXAT := 2, PXAT := 2 }) ∧
      (execGETSET 3 "GETSET" ⟨[.bulk "SET", .bulk "k", .bulk "v"], 1⟩).1
        = .call (.Set "k" "v" { opt with GET := true, EXAT := 3, PXAT := 3 }) :=
  (sugar_option_records 1 2 3 "SET" "SETNX" "GETSET" ⟨[.bulk "SET", .bulk "k", .bulk "v"], 1⟩
    (.bulk "k") (.bulk "v") "k" "v" rfl rfl rfl rfl).1

/-! ## `MSET` with a key left without value -/

/-- C2 fails on the code: for `MSET k1 v1 k2`, `MSETNX k1` and `HMSET h k1` the
executors return no error; they call the handler, and the key without value is
passed paired with the empty string. -/
theorem mset_key_without_value :
    (execMSET 0 "MSET" ⟨[.bulk "MSET", .bulk "k1", .bulk "v1", .bulk "k2"], 1⟩).1
      = .call (.MSet ⟨[("k1", "v1"), ("k2", "")]⟩ { NX := false }) ∧
    (execMSETNX 0 "MSETNX" ⟨[.bulk "MSETNX", .bulk "k1"], 1⟩).1
      = .call (.MSet ⟨[("k1", "")]⟩ { NX := true }) ∧
    (execHMSET 0 "HMSET" ⟨[.bulk "HMSET", .bulk "h", .bulk "k1"], 1⟩).1
      = .call (.HMSet "h" ⟨[("k1", "")]⟩ {}) := by
  refine ⟨?_, ?_, ?_⟩ <;>
    simp [execMSET, execMSETNX, execHMSET, parseHashArg, parseMSetArgs, loop_none, loop_some,
      proto.Array.NextString, proto.Array.Next, proto.Message.String, GoMap.set,
      GoMap.setEntries, GoMap.empty, Error.Is]

/-! ## Go maps: assignment and lookup -/

/-- Lookup in a list of entries, one entry at a time. -/
theorem lookup_cons_ite {α : Type} (k a : String) (b : α) (es : List (String × α)) :
    List.lookup k ((a, b) :: es) = if k = a then some b else List.lookup k es := by
  by_cases h : k = a
  · simp [List.lookup_cons, h]
  · have hb : (k == a) = false := by simpa using h
    simp [List.lookup_cons, h, hb]

/-- After `m[key] = val` the key is bound to `val` and every other key is as
before. -/
theorem GoMap.get_set {α : Type} (m : GoMap α) (key : String) (val : α) (k : String) :
    (m.set key val).get k = if k = key then some val else m.get k := by
  rcases m with ⟨entries⟩
  simp only [GoMap.set, GoMap.get]
  induction entries with
  | nil => simp [GoMap.setEntries, lookup_cons_ite]
  | cons entry rest ih =>
    rcases entry with ⟨k0, v0⟩
    by_cases h0 : k0 = key
    · simp only [GoMap.setEntries, h0, if_true, lookup_cons_ite]
      by_cases hk : k = key <;> simp [hk]
    · simp only [GoMap.setEntries, h0, if_false, lookup_cons_ite, ih]
      by_cases hk0 : k = k0
      · have hne : ¬ k = key := fun h => h0 (hk0 ▸ h)
        simp [hk0, h0]
      · simp [hk0]

/-- The keys after `m[key] = val` are `key` and the keys before. -/
theorem GoMap.mem_keys_set {α : Type} (m : GoMap α) (key : String) (val : α) (k : String) :
    k ∈ (m.set key val).keys ↔ k = key ∨ k ∈ m.keys := by
  rcases m with ⟨entries⟩
  simp only [GoMap.set, GoMap.keys]
  induction entries with
  | nil => simp [GoMap.setEntries]
  | cons entry rest ih =>
    rcases entry with ⟨k0, v0⟩
    by_cases h0 : k0 = key
    · simp [GoMap.setEntries, h0]
    · simp only [GoMap.setEntries, h0, if_false, List.map_cons, List.mem_cons, ih]
      tauto

/-- Assignment keeps the keys of a map free of repeats. -/
theorem GoMap.nodup_keys_set {α : Type} (m : GoMap α) (key : String) (val : α)
    (h : m.keys.Nodup) : (m.set key val).keys.Nodup := by
  rcases m with ⟨entries⟩
  simp only [GoMap.set, GoMap.keys] at h ⊢
  induction entries with
  | nil => simp [GoMap.setEntries]
  | cons entry rest ih =>
    rcases entry with ⟨k0, v0⟩
    rw [List.map_cons, List.nodup_cons] at h
    by_cases h0 : k0 = key
    · simp only [GoMap.setEntries, h0, if_true, List.map_cons, List.nodup_cons]
      exact ⟨h0 ▸ h.1, h.2⟩
    · simp only [GoMap.setEntries, h0, if_false, List.map_cons, List.nodup_cons]
      refine ⟨?_, ih h.2⟩
      intro hmem
      have := (GoMap.mem_keys_set ⟨rest⟩ key val k0).mp hmem
      rcases this with h1 | h1
      · exact h0 h1
      · exact h.1 h1

/-- In the map built from a list of pairs each key is bound to the value of its
last pair, and a key without pair is as before. -/
theorem get_assignAll (kvs : List (String × String)) (dir : GoMap String) (k : String) :
    (assignAll dir kvs).get k = (kvs.reverse.lookup k).or (dir.get k) := by
  induction kvs generalizing dir with
  | nil => simp [assignAll]
  | cons kv rest ih =>
    rcases kv with ⟨k0, v0⟩
    have hfold : assignAll dir ((k0, v0) :: rest) = assignAll (dir.set k0 v0) rest := rfl
    rw [hfold, ih, GoMap.get_set, List.reverse_cons, List.lookup_append]
    cases hl : List.lookup k rest.reverse with
    | some v => simp
    | none =>
      by_cases hk : k = k0
      · simp [lookup_cons_ite, hk]
      · simp [lookup_cons_ite, hk]

/-- The keys of the map built from a list of pairs are the keys of the pairs
and the keys before. -/
theorem mem_keys_assignAll (kvs : List (String × String)) (dir : GoMap String) (k : String) :
    k ∈ (assignAll dir kvs).keys ↔ k ∈ kvs.map Prod.fst ∨ k ∈ dir.keys := by
  induction kvs generalizing dir with
  | nil => simp [assignAll]
  | cons kv rest ih =>
    rcases kv with ⟨k0, v0⟩
    have hfold : assignAll dir ((k0, v0) :: rest) = assignAll (dir.set k0 v0) rest := rfl
    rw [hfold, ih, GoMap.mem_keys_set]
    simp only [List.map_cons, List.mem_cons]
    tauto

/-- The map built from a list of pairs has no key twice. -/
theorem nodup_keys_assignAll (kvs : List (String × String)) (dir : GoMap String)
    (h : dir.keys.Nodup) : (assignAll dir kvs).keys.Nodup := by
  induction kvs generalizing dir with
  | nil => simpa [assignAll] using h
  | cons kv rest ih =>
    exact ih (dir.set kv.1 kv.2) (GoMap.nodup_keys_set dir kv.1 kv.2 h)

/-! ## `parseMSetArgs` on `k1 v1 ... kn vn` -/

/-- The element under the index is the head of what is left of the list. -/
theorem getElem?_of_drop_cons (msgs rest : List proto.Message) (msg : proto.Message) (i : Nat)
    (h : msgs.drop i = msg :: rest) : msgs[i]? = some msg ∧ msgs.drop (i + 1) = rest := by
  constructor
  · have := List.getElem?_drop msgs i 0
    rw [h] at this
    simpa using this.symm
  · have := List.tail_drop msgs i
    rw [h] at this
    simpa using this.symm

/-- Nothing is left of the list from the index on: the index is past the last
element. -/
theorem getElem?_of_drop_nil (msgs : List proto.Message) (i : Nat) (h : msgs.drop i = []) :
    msgs[i]? = none :=
  List.getElem?_eq_none (List.drop_eq_nil_iff.mp h)

/-- The loop, entered with a key whose value and `n` further pairs are ahead:
it stores them all, reads up to the end of the array and is left with the
end-of-message sentinel. -/
theorem loop_pairs (cmd : String) (msgs : List proto.Message) (kvs : List (String × String)) :
    ∀ (dir : GoMap String) (key val : String) (mv : proto.Message)
      (rest : List proto.Message) (i : Nat),
      msgs.drop i = mv :: rest → mv.String = .ok val → StringArgs rest kvs →
      parseMSetArgs.loop cmd dir key none ⟨msgs, i⟩
        = (assignAll (dir.set key val) kvs, some .ErrEOM, ⟨msgs, msgs.length⟩) := by
  induction kvs with
  | nil =>
    intro dir key val mv rest i hdrop hval hargs
    have hrest : rest = [] := by
      cases rest with
      | nil => rfl
      | cons _ _ => simp [StringArgs] at hargs
    subst hrest
    obtain ⟨h0, h1⟩ := getElem?_of_drop_cons msgs [] mv i hdrop
    have hlen : i + 1 = msgs.length := by
      have hle := List.drop_eq_nil_iff.mp h1
      have hlt : i < msgs.length := by
        by_contra hcon
        rw [List.getElem?_eq_none (Nat.le_of_not_lt hcon)] at h0
        cases h0
      omega
    rw [loop_none, NextString_some ⟨msgs, i⟩ mv val h0 hval]
    simp only []
    rw [NextString_none ⟨msgs, i + 1⟩ (getElem?_of_drop_nil msgs (i + 1) h1), loop_some, hlen]
    rfl
  | cons kv kvs ih =>
    intro dir key val mv rest i hdrop hval hargs
    rcases kv with ⟨k, v⟩
    obtain ⟨h0, h1⟩ := getElem?_of_drop_cons msgs rest mv i hdrop
    match rest, hargs, h1 with
    | mk :: mv1 :: rest1, hargs, h1 =>
      simp only [StringArgs] at hargs
      obtain ⟨hk, hv, hrest⟩ := hargs
      obtain ⟨h2, h3⟩ := getElem?_of_drop_cons msgs (mv1 :: rest1) mk (i + 1) h1
      rw [loop_none, NextString_some ⟨msgs, i⟩ mv val h0 hval]
      simp only []
      rw [NextString_some ⟨msgs, i + 1⟩ mk k h2 hk]
      simp only []
      rw [ih (dir.set key val) k v mv1 rest1 (i + 1 + 1) h3 hv hrest]
      rfl
    | [], hargs, _ => simp [StringArgs] at hargs
    | [_], hargs, _ => simp [StringArgs] at hargs

/-- C10: on a cursor whose unread elements are `k1 v1 ... kn vn`, each read as a
string, `parseMSetArgs` leaves its loop with the end-of-message sentinel,
returns no error and leaves nothing unread in the array; the map it returns
has no key twice, its keys are exactly `k1 .. kn`, and each key is bound to the
value of its last pair. -/
theorem parseMSetArgs_pairs (cmd : String) (args : proto.Array)
    (kvs : List (String × String))
    (hargs : StringArgs (args.msgs.drop args.index) kvs) :
    (parseMSetArgs.loop cmd GoMap.empty args.NextString.1.1 args.NextString.1.2
        args.NextString.2).2.1 = some .ErrEOM ∧
    (parseMSetArgs cmd args).1.2 = none ∧
    (parseMSetArgs cmd args).2.msgs = args.msgs ∧
    (parseMSetArgs cmd args).2.remaining = 0 ∧
    (parseMSetArgs cmd args).1.1.keys.Nodup ∧
    (∀ k, k ∈ (parseMSetArgs cmd args).1.1.keys ↔ k ∈ kvs.map Prod.fst) ∧
    (∀ k, (parseMSetArgs cmd args).1.1.get k = kvs.reverse.lookup k) := by
  rcases args with ⟨msgs, index⟩
  match hrest : msgs.drop index, kvs, hargs with
  | [], [], _ =>
    have h0 := getElem?_of_drop_nil msgs index hrest
    have hle := List.drop_eq_nil_iff.mp hrest
    have hnext := NextString_none ⟨msgs, index⟩ h0
    have hres : parseMSetArgs cmd ⟨msgs, index⟩ = ((GoMap.empty, none), ⟨msgs, index⟩) := by
      simp [parseMSetArgs, hnext, loop_some, Error.Is]
    rw [hres, hnext, loop_some]
    refine ⟨rfl, rfl, rfl, ?_, ?_, ?_, ?_⟩
    · simp only [proto.Array.remaining]
      omega
    · simp [GoMap.keys, GoMap.empty]
    · intro k; simp [GoMap.keys, GoMap.empty]
    · intro k; simp [GoMap.get, GoMap.empty]
  | mk :: mv :: rest, (key, val) :: kvs, hargs =>
    simp only [StringArgs] at hargs
    obtain ⟨hk, hv, hargs⟩ := hargs
    obtain ⟨h0, h1⟩ := getElem?_of_drop_cons msgs (mv :: rest) mk index hrest
    have hnext := NextString_some ⟨msgs, index⟩ mk key h0 hk
    have hloop := loop_pairs cmd msgs kvs GoMap.empty key val mv rest (index + 1) h1 hv hargs
    have hres : parseMSetArgs cmd ⟨msgs, index⟩
        = ((assignAll (GoMap.empty.set key val) kvs, none), ⟨msgs, msgs.length⟩) := by
      simp [parseMSetArgs, hnext, hloop, Error.Is]
    rw [hres]
    refine ⟨?_, rfl, rfl, ?_, ?_, ?_, ?_⟩
    · rw [hnext]
      exact congrArg (fun r => r.2.1) hloop
    · simp [proto.Array.remaining]
    · exact nodup_keys_assignAll kvs _
        (GoMap.nodup_keys_set _ _ _ (by simp [GoMap.keys, GoMap.empty]))
    · intro k
      rw [mem_keys_assignAll, GoMap.mem_keys_set]
      simp only [List.map_cons, List.mem_cons, GoMap.keys, GoMap.empty, List.map_nil,
        List.not_mem_nil, or_false]
      tauto
    · intro k
      rw [get_assignAll, GoMap.get_set, List.reverse_cons, List.lookup_append]
      cases hl : List.lookup k kvs.reverse with
      | some v => simp
      | none =>
        by_cases hkk : k = key
        · simp [lookup_cons_ite, hkk]
        · simp [lookup_cons_ite, hkk, GoMap.get, GoMap.empty]
  | [], _ :: _, hargs => simp [StringArgs] at hargs
  | [_], _, hargs => simp [StringArgs] at hargs
  | _ :: _ :: _, [], hargs => simp [StringArgs] at hargs

/-- C10, on the concrete arguments `k1 v1 k2 v2 k1 v3`: no error, and `k1` is
bound to `v3`. -/
theorem parseMSetArgs_pairs_witness :
    StringArgs
      (List.drop 1 [.bulk "MSET", .bulk "k1", .bulk "v1", .bulk "k2", .bulk "v2",
        .bulk "k1", .bulk "v3"])
      [("k1", "v1"), ("k2", "v2"), ("k1", "v3")] ∧
    (parseMSetArgs "MSET" ⟨[.bulk "MSET", .bulk "k1", .bulk "v1", .bulk "k2", .bulk "v2",
        .bulk "k1", .bulk "v3"], 1⟩).1.2 = none ∧
    (parseMSetArgs "MSET" ⟨[.bulk "MSET", .bulk "k1", .bulk "v1", .bulk "k2", .bulk "v2",
        .bulk "k1", .bulk "v3"], 1⟩).1.1.get "k1" = some "v3" :=
  have h := parseMSetArgs_pairs "MSET"
    ⟨[.bulk "MSET", .bulk "k1", .bulk "v1", .bulk "k2", .bulk "v2", .bulk "k1", .bulk "v3"], 1⟩
    [("k1", "v1"), ("k2", "v2"), ("k1", "v3")]
    (by simp [StringArgs, proto.Message.String])
  ⟨by simp [StringArgs, proto.Message.String], h.2.1, (h.2.2.2.2.2.2 "k1").trans (by decide)⟩

/-! ## The executor registry -/

/-- C9: registering `f` and then `g` under the verb `v` leaves `v` mapped to
`g`, in the other order to `f`, and in both cases every verb other than `v` is
mapped as before. -/
theorem RegisterExexutor_last_wins (server : Server) (v w : String) (f g : Executor) :
    ((server.RegisterExexutor v f).RegisterExexutor v g).commandExecutors.get v = some g ∧
    ((server.RegisterExexutor v g).RegisterExexutor v f).commandExecutors.get v = some f ∧
    (w ≠ v →
      ((server.RegisterExexutor v f).RegisterExexutor v g).commandExecutors.get w
        = server.commandExecutors.get w ∧
      ((server.RegisterExexutor v g).RegisterExexutor v f).commandExecutors.get w
        = server.commandExecutors.get w) := by
  refine ⟨?_, ?_, ?_⟩
  · simp [Server.RegisterExexutor, GoMap.get_set]
  · simp [Server.RegisterExexutor, GoMap.get_set]
  · intro hw
    simp [Server.RegisterExexutor, GoMap.get_set, hw]

/-- C9, on a registry that holds `SET` and `MSET`: `SETNX` is registered
twice, and `SET` stays as it was. -/
theorem RegisterExexutor_last_wins_witness :
    "SET" ≠ "SETNX" ∧
    ((((⟨"", 6379, ⟨[("SET", execSET), ("MSET", execMSET)]⟩⟩ : Server).RegisterExexutor
        "SETNX" execSET).RegisterExexutor "SETNX" execSETNX).commandExecutors.get "SET"
      = (⟨"", 6379, ⟨[("SET", execSET), ("MSET", execMSET)]⟩⟩ : Server).commandExecutors.get
          "SET") :=
  ⟨by decide,
   ((RegisterExexutor_last_wins ⟨"", 6379, ⟨[("SET", execSET), ("MSET", execMSET)]⟩⟩
      "SETNX" "SET" execSET execSETNX).2.2 (by decide)).1⟩

/-! ## Nested request arrays -/

section

variable {σ : Type}

open proto in
/-- An array under the cursor is taken in place of the request. -/
theorem handleArrayMessage_nested (executeCommand : Dispatch σ) (s : σ)
    (arrayMsg nested : Array) (firstMsg : proto.Message)
    (hfirst : arrayMsg.msgs[arrayMsg.index]? = some firstMsg)
    (harr : firstMsg.Array = .ok nested) :
    handleArrayMessage executeCommand s arrayMsg
      = handleArrayMessage executeCommand s nested := by
  have hnext := Next_some arrayMsg firstMsg hfirst
  have hisarr : firstMsg.IsArray = true := by
    cases firstMsg <;> simp [Message.Array] at harr <;> rfl
  rw [handleArrayMessage]
  split
  · rename_i h; rw [hnext] at h; cases h
  · rename_i first1 a1 h
    rw [hnext] at h
    cases h
    simp only [hisarr, if_true]
    split
    · rename_i h2; rw [harr] at h2; cases h2
    · rename_i nested1 h2
      rw [harr] at h2
      cases h2
      rfl

open proto in
/-- An element under the cursor that is not an array gives the verb, and the
cursor goes to `executeCommand` one element on. -/
theorem handleArrayMessage_verb (executeCommand : Dispatch σ) (s : σ) (arrayMsg : Array)
    (firstMsg : proto.Message) (cmd : String)
    (hfirst : arrayMsg.msgs[arrayMsg.index]? = some firstMsg)
    (hna : firstMsg.IsArray = false) (hcmd : firstMsg.String = .ok cmd) :
    handleArrayMessage executeCommand s arrayMsg
      = executeCommand s cmd { arrayMsg with index := arrayMsg.index + 1 } := by
  have hnext := Next_some arrayMsg firstMsg hfirst
  rw [handleArrayMessage]
  split
  · rename_i h; rw [hnext] at h; cases h
  · rename_i first1 a1 h
    rw [hnext] at h
    cases h
    simp [hna, hcmd]

/-- C8: when the element under the cursor of the request array `outer` is an
array `inner`, `handleArrayMessage` gives on `outer` what it gives on `inner`,
whatever follows in `outer`; and when an array `last` is reached from `outer` by
any number of such unwrappings and the element under its cursor is not an array
and gives the string `cmd`, `handleArrayMessage` on `outer` is `executeCommand`
on the verb `cmd` and the cursor of `last` moved just after that element. -/
theorem handleArrayMessage_unwraps (executeCommand : Dispatch σ) (s : σ)
    (outer : proto.Array) :
    (∀ (firstMsg : proto.Message) (inner : proto.Array),
      outer.msgs[outer.index]? = some firstMsg → firstMsg.Array = .ok inner →
      handleArrayMessage executeCommand s outer = handleArrayMessage executeCommand s inner) ∧
    (∀ (depth : Nat) (last : proto.Array) (firstMsg : proto.Message) (cmd : String),
      NestedAt depth outer last →
      last.msgs[last.index]? = some firstMsg → firstMsg.IsArray = false →
      firstMsg.String = .ok cmd →
      handleArrayMessage executeCommand s outer
        = executeCommand s cmd { last with index := last.index + 1 }) := by
  refine ⟨fun firstMsg inner h1 h2 =>
    handleArrayMessage_nested executeCommand s outer inner firstMsg h1 h2, ?_⟩
  intro depth
  induction depth generalizing outer with
  | zero =>
    intro last firstMsg cmd hnest hfirst hna hcmd
    simp only [NestedAt] at hnest
    subst hnest
    exact handleArrayMessage_verb executeCommand s outer firstMsg cmd hfirst hna hcmd
  | succ depth ih =>
    intro last firstMsg cmd hnest hfirst hna hcmd
    simp only [NestedAt] at hnest
    obtain ⟨msg, next, hmsg, hnext, hrest⟩ := hnest
    rw [handleArrayMessage_nested executeCommand s outer next msg hmsg hnext]
    exact ih next last firstMsg cmd hrest hfirst hna hcmd

/-- C8, on a request nested two arrays deep, with further elements after the
nested arrays: the verb is `PING`. -/
theorem handleArrayMessage_unwraps_witness :
    NestedAt 2
      ⟨[.array [.array [.bulk "PING"] 0, .bulk "more"] 0, .bulk "rest"], 0⟩
      ⟨[.bulk "PING"], 0⟩ ∧
    handleArrayMessage systemDispatch 0
        ⟨[.array [.array [.bulk "PING"] 0, .bulk "more"] 0, .bulk "rest"], 0⟩
      = ((some (.string "PONG"), none), 1) :=
  ⟨⟨_, _, rfl, rfl, _, _, rfl, rfl, rfl⟩,
   (handleArrayMessage_unwraps systemDispatch 0
      ⟨[.array [.array [.bulk "PING"] 0, .bulk "more"] 0, .bulk "rest"], 0⟩).2
      2 ⟨[.bulk "PING"], 0⟩ (.bulk "PING") "PING"
      ⟨_, _, rfl, rfl, _, _, rfl, rfl, rfl⟩ rfl rfl rfl⟩

/-! ## The session loop -/

/-- One round of the loop of `receive` on a message read without parser error:
the message is handled, the response is written, and the loop either ends on
the quit sentinel or goes on with the next result of the parser. -/
theorem receive_loop_step (codec : Codec) (executeCommand : Dispatch σ) (s : σ)
    (conn : NetConn) (reqMsg : Message) (parser : Parser) :
    receive.loop codec executeCommand s conn (some reqMsg) none parser
      = (let result := handleMessage executeCommand s reqMsg
         let resMsg : Option Message :=
           match result.1.2 with
           | some reqErr =>
               if !(reqErr.Is .errQuit) then some (codec.NewErrorMessage reqErr)
               else result.1.1
           | none => result.1.1
         let conn1 := (responseMessage codec conn resMsg).2
         if (result.1.2.map (fun e => e.Is .errQuit)).getD false then
           ⟨none, conn1.Close, result.2⟩
         else
           receive.loop codec executeCommand result.2 conn1 parser.Next.1.1 parser.Next.1.2
             parser.Next.2) := by
  rw [receive.loop]

/-- The loop of `receive` ends when the parser gives no message. -/
theorem receive_loop_end (codec : Codec) (executeCommand : Dispatch σ) (s : σ)
    (conn : NetConn) (parserErr : Option Error) (parser : Parser) :
    receive.loop codec executeCommand s conn none parserErr parser = ⟨none, conn, s⟩ := by
  rw [receive.loop]

/-- C1, as the code has it: for a request message that is not an array,
`handleMessage` returns no message and no error and leaves the state as it is;
the loop calls `responseMessage` without a message and goes on with the next
result of the parser; and `responseMessage` without a message writes the bytes
of the system error message when they can be made, and nothing otherwise. -/
theorem nonarray_request (codec : Codec) (executeCommand : Dispatch σ) (s : σ)
    (conn : NetConn) (reqMsg : Message) (parser : Parser)
    (hna : reqMsg.IsArray = false) :
    handleMessage executeCommand s reqMsg = ((none, none), s) ∧
    receive.loop codec executeCommand s conn (some reqMsg) none parser
      = receive.loop codec executeCommand s (responseMessage codec conn none).2
          parser.Next.1.1 parser.Next.1.2 parser.Next.2 ∧
    (∀ bytes, codec.Bytes (codec.NewErrorMessage .errSystem) = .ok bytes →
      (responseMessage codec conn none).2 = conn.Write bytes) ∧
    (∀ err, codec.Bytes (codec.NewErrorMessage .errSystem) = .error err →
      (responseMessage codec conn none).2 = conn) := by
  have hh : handleMessage executeCommand s reqMsg = ((none, none), s) := by
    cases reqMsg <;> first | rfl | simp [proto.Message.IsArray] at hna
  refine ⟨hh, ?_, ?_, ?_⟩
  · rw [receive_loop_step, hh]
    rfl
  · intro bytes hbytes
    simp [responseMessage, hbytes]
  · intro err herr
    simp [responseMessage, herr]

/-- C1, on the simple string `PING` sent as a request: the loop goes on after
`responseMessage` has been called without a message. -/
theorem nonarray_request_witness :
    (proto.Message.string "PING").IsArray = false ∧
    handleMessage systemDispatch 0 (.string "PING") = ((none, none), 0) :=
  ⟨rfl, (nonarray_request specCodec systemDispatch 0 ⟨[]⟩ (.string "PING") ⟨[]⟩ rfl).1⟩

/-- C1 fails as stated: for the simple string `PING` sent as the only request,
the session loop writes a frame to the connection, the system error. -/
theorem nonarray_request_counterexample :
    (receive specCodec systemDispatch 0 ⟨[]⟩
        ⟨[(some (.string "PING"), none)]⟩).conn.written = ["-system error\r\n"] ∧
    (receive specCodec systemDispatch 0 ⟨[]⟩
        ⟨[(some (.string "PING"), none)]⟩).conn.written ≠ [] := by
  have h : (receive specCodec systemDispatch 0 ⟨[]⟩
      ⟨[(some (.string "PING"), none)]⟩).conn.written = ["-system error\r\n"] := by
    simp [receive, Parser.Next, receive_loop_step, receive_loop_end, handleMessage,
      responseMessage, specCodec, RESPBytes, Error.Error, NetConn.Write, NetConn.Close,
      NetConn.written]
  exact ⟨h, by rw [h]; decide⟩

/-- C6: when handling a request returns a response message together with an
error that is the quit sentinel, the loop calls `responseMessage` with that
response message, then closes the connection and returns without error,
whatever the parser still holds, and the state is the one that request has
left. The calls made on the connection are, after those made before, first
the `Write` of the serialised response message and then `Close`, so that the
bytes written are those of the response message and the connection is closed
after them; and `receive` on a stream that begins with such a request makes
these two calls and the deferred `Close`, and no other, whatever follows in
the stream. -/
theorem quit_closes (codec : Codec) (executeCommand : Dispatch σ) (s s1 : σ)
    (conn : NetConn) (reqMsg resMsg : Message) (reqErr : Error) (parser : Parser)
    (hreq : handleMessage executeCommand s reqMsg = ((some resMsg, some reqErr), s1))
    (hquit : reqErr.Is .errQuit = true) :
    receive.loop codec executeCommand s conn (some reqMsg) none parser
      = ⟨none, (responseMessage codec conn (some resMsg)).2.Close, s1⟩ ∧
    (∀ bytes, codec.RESPBytes resMsg = .ok bytes →
      (responseMessage codec conn (some resMsg)).2.Close
        = ⟨conn.calls ++ [ConnCall.Write bytes, ConnCall.Close]⟩ ∧
      (responseMessage codec conn (some resMsg)).2.Close.written = conn.written ++ [bytes] ∧
      (responseMessage codec conn (some resMsg)).2.Close.closed = true ∧
      ∀ rest : List Pull,
        receive codec executeCommand s conn ⟨(some reqMsg, none) :: rest⟩
          = ⟨none, ⟨conn.calls ++ [ConnCall.Write bytes, ConnCall.Close, ConnCall.Close]⟩,
              s1⟩) := by
  have hloop : ∀ parser : Parser,
      receive.loop codec executeCommand s conn (some reqMsg) none parser
        = ⟨none, (responseMessage codec conn (some resMsg)).2.Close, s1⟩ := by
    intro parser
    rw [receive_loop_step, hreq]
    simp [hquit]
  refine ⟨hloop parser, ?_⟩
  intro bytes hbytes
  have hresp : (responseMessage codec conn (some resMsg)).2 = conn.Write bytes := by
    simp [responseMessage, hbytes]
  have hcalls : (responseMessage codec conn (some resMsg)).2.Close
      = ⟨conn.calls ++ [ConnCall.Write bytes, ConnCall.Close]⟩ := by
    simp [hresp, NetConn.Write, NetConn.Close]
  refine ⟨hcalls, ?_, ?_, ?_⟩
  · rw [hcalls]
    simp [NetConn.written]
  · rw [hcalls]
    simp [NetConn.closed]
  · intro rest
    have hnext : Parser.Next ⟨(some reqMsg, none) :: rest⟩ = ((some reqMsg, none), ⟨rest⟩) :=
      rfl
    simp only [receive, hnext, hloop, hresp, NetConn.Write, NetConn.Close,
      List.append_assoc, List.cons_append, List.nil_append]

/-- C6, on `QUIT` followed by `PING` in the stream: `+OK` is written and then
the connection is closed, one request has been dispatched, and `receive` makes
no further call but the deferred `Close`. -/
theorem quit_closes_witness :
    handleMessage systemDispatch 0 (.array [.bulk "QUIT"] 0)
      = ((some (.string "OK"), some .errQuit), 1) ∧
    receive.loop specCodec systemDispatch 0 ⟨[]⟩ (some (.array [.bulk "QUIT"] 0)) none
        ⟨[(some (.array [.bulk "PING"] 0), none)]⟩
      = ⟨none, ⟨[ConnCall.Write "+OK\r\n", ConnCall.Close]⟩, 1⟩ ∧
    receive specCodec systemDispatch 0 ⟨[]⟩
        ⟨[(some (.array [.bulk "QUIT"] 0), none), (some (.array [.bulk "PING"] 0), none)]⟩
      = ⟨none, ⟨[ConnCall.Write "+OK\r\n", ConnCall.Close, ConnCall.Close]⟩, 1⟩ := by
  have hreq : handleMessage systemDispatch 0 (.array [.bulk "QUIT"] 0)
      = ((some (.string "OK"), some .errQuit), 1) :=
    handleArrayMessage_verb systemDispatch 0 ⟨[.bulk "QUIT"], 0⟩ (.bulk "QUIT") "QUIT"
      rfl rfl rfl
  have h := quit_closes specCodec systemDispatch 0 1 ⟨[]⟩ (.array [.bulk "QUIT"] 0)
    (.string "OK") .errQuit ⟨[(some (.array [.bulk "PING"] 0), none)]⟩ hreq rfl
  have hbytes : specCodec.RESPBytes (.string "OK") = .ok "+OK\r\n" := by
    simp [specCodec, RESPBytes]
  refine ⟨hreq, ?_, ?_⟩
  · rw [h.1, (h.2 "+OK\r\n" hbytes).1]
    rfl
  · rw [(h.2 "+OK\r\n" hbytes).2.2.2 [(some (.array [.bulk "PING"] 0), none)]]
    rfl

end

/-! ## `Set.Add` -/

namespace server

/-- The inner loop of `Add` finds exactly the members of the set. -/
theorem hasMember_iff (members : List String) (member : String) :
    Set.Add.hasMember members member = true ↔ member ∈ members := by
  unfold Set.Add.hasMember
  induction members using List.reverseRecOn with
  | nil => simp
  | append_singleton members set ih =>
    rw [List.foldl_append]
    simp only [List.foldl_cons, List.foldl_nil]
    by_cases h : set = member
    · rw [if_pos h]
      simp [h]
    · have hne : ¬ member = set := fun h' => h h'.symm
      rw [if_neg h, ih]
      simp [hne]

/-- One more round of the loop of `Add`, for the member `member`. -/
theorem Add_append (set : Set) (members : List String) (member : String) :
    set.Add (members ++ [member])
      = if Set.Add.hasMember (set.Add members).2.members member then set.Add members
        else ((set.Add members).1 + 1,
              { members := (set.Add members).2.members ++ [member] }) := by
  simp only [Set.Add, List.foldl_append, List.foldl_cons, List.foldl_nil]

/-- What `Add` does: the members it appends are, without repeats and in the
order of their first occurrence, the elements of the argument that were not in
the set, and the count is their number. -/
theorem Add_appends (set : Set) (members : List String) :
    ∃ added : List String,
      set.Add members = (added.length, { members := set.members ++ added }) ∧
      added.Nodup ∧
      (∀ x, x ∈ added ↔ x ∈ members ∧ x ∉ set.members) ∧
      added.Pairwise (fun x y => members.indexOf x < members.indexOf y) := by
  induction members using List.reverseRecOn with
  | nil => exact ⟨[], by simp [Set.Add], List.nodup_nil, by simp, List.Pairwise.nil⟩
  | append_singleton members member ih =>
    obtain ⟨added, hadd, hnodup, hmem, hord⟩ := ih
    have hordApp : added.Pairwise
        (fun x y => (members ++ [member]).indexOf x < (members ++ [member]).indexOf y) := by
      refine hord.imp_of_mem ?_
      intro x y hx hy hlt
      rw [List.indexOf_append_of_mem ((hmem x).mp hx).1,
        List.indexOf_append_of_mem ((hmem y).mp hy).1]
      exact hlt
    rw [Add_append, hadd]
    by_cases hhas : Set.Add.hasMember (set.members ++ added) member = true
    · refine ⟨added, by simp [hhas], hnodup, ?_, hordApp⟩
      intro x
      rw [hmem x]
      constructor
      · rintro ⟨hx, hns⟩
        exact ⟨List.mem_append_left _ hx, hns⟩
      · rintro ⟨hx, hns⟩
        rcases List.mem_append.mp hx with hx | hx
        · exact ⟨hx, hns⟩
        · have hxm : x = member := by simpa using hx
          subst hxm
          have := (hasMember_iff _ _).mp hhas
          rcases List.mem_append.mp this with h | h
          · exact absurd h hns
          · exact (hmem x).mp h
    · have hnot : member ∉ set.members ++ added := fun h => hhas ((hasMember_iff _ _).mpr h)
      have hns : member ∉ set.members := fun h => hnot (List.mem_append_left _ h)
      have hna : member ∉ added := fun h => hnot (List.mem_append_right _ h)
      have hnm : member ∉ members := fun h => hna ((hmem member).mpr ⟨h, hns⟩)
      refine ⟨added ++ [member], by simp [hhas], ?_, ?_, ?_⟩
      · exact List.nodup_append.mpr ⟨hnodup, List.nodup_singleton _, by
          intro x hx hx'
          have : x = member := by simpa using hx'
          exact hna (this ▸ hx)⟩
      · intro x
        simp only [List.mem_append, List.mem_singleton, hmem x]
        constructor
        · rintro (⟨hx, hxs⟩ | rfl)
          · exact ⟨Or.inl hx, hxs⟩
          · exact ⟨Or.inr rfl, hns⟩
        · rintro ⟨hx | rfl, hxs⟩
          · exact Or.inl ⟨hx, hxs⟩
          · exact Or.inr rfl
      · refine List.pairwise_append.mpr ⟨hordApp, List.pairwise_singleton _ _, ?_⟩
        intro x hx y hy
        have hy' : y = member := by simpa using hy
        subst hy'
        rw [List.indexOf_append_of_mem ((hmem x).mp hx).1,
          List.indexOf_append_of_not_mem hnm]
        have := List.indexOf_lt_length.mpr ((hmem x).mp hx).1
        omega

/-- Two lists without repeats that hold the same elements have the same
length. -/
theorem length_eq_of_nodup_of_mem_iff (l₁ l₂ : List String) (h₁ : l₁.Nodup) (h₂ : l₂.Nodup)
    (h : ∀ x, x ∈ l₁ ↔ x ∈ l₂) : l₁.length = l₂.length :=
  ((List.perm_ext_iff_of_nodup h₁ h₂).mpr h).length_eq

/-- C11: `Add` appends to the members of the set, which stay as they are and
in their order, a list `added` that holds without repeats, in the order of
their first occurrence in the argument, the elements of the argument that were
not in the set; the count it returns is the length of `added`, which is the
number of distinct elements of the argument that were not in the set; and
`SAdd`, when its lookups give the set, replies with that count as an Integer
message and no error, the set being left as `Add` leaves it. -/
theorem Add_counts_new {Database Record : Type}
    (GetDatabase : Nat → Except Error Database)
    (GetSetRecord : Database → String → Except Error (Record × Set))
    (ctxID : Nat) (key : String) (db : Database) (record : Record)
    (set : Set) (members : List String) :
    ∃ added : List String,
      set.Add members = (added.length, { members := set.members ++ added }) ∧
      added.Nodup ∧
      (∀ x, x ∈ added ↔ x ∈ members ∧ x ∉ set.members) ∧
      added.Pairwise (fun x y => members.indexOf x < members.indexOf y) ∧
      added.length = (members.dedup.filter (fun x => x ∉ set.members)).length ∧
      (GetDatabase ctxID = .ok db → GetSetRecord db key = .ok (record, set) →
        SAdd GetDatabase GetSetRecord ctxID key members
          = ((some (.integer (added.length : Int)), none),
             some { members := set.members ++ added })) := by
  obtain ⟨added, hadd, hnodup, hmem, hord⟩ := Add_appends set members
  refine ⟨added, hadd, hnodup, hmem, hord, ?_, ?_⟩
  · refine length_eq_of_nodup_of_mem_iff _ _ hnodup
      ((List.nodup_dedup members).filter _) ?_
    intro x
    rw [hmem x]
    simp
  · intro hdb hrec
    simp only [SAdd, hdb, hrec, hadd, NewIntegerMessage]

/-- C11, on the set `a b` and the argument `c a c d`: `SAdd` replies 2, and the
members are `a b c d`. -/
theorem Add_counts_new_witness :
    SAdd (fun _ => Except.ok ()) (fun _ _ => Except.ok ((), ({ members := ["a", "b"] } : Set)))
        0 "key" ["c", "a", "c", "d"]
      = ((some (.integer 2), none), some { members := ["a", "b", "c", "d"] }) := by
  obtain ⟨added, hadd, -, -, -, -, hsadd⟩ :=
    Add_counts_new (fun _ => Except.ok ())
      (fun _ _ => Except.ok ((), ({ members := ["a", "b"] } : Set)))
      0 "key" () () { members := ["a", "b"] } ["c", "a", "c", "d"]
  have hval : Set.Add { members := ["a", "b"] } ["c", "a", "c", "d"]
      = (2, { members := ["a", "b", "c", "d"] }) := by decide
  rw [hval] at hadd
  have hadded : added = ["c", "d"] := by
    have h := congrArg (fun r => r.2.members) hadd
    simp only [List.cons_append, List.nil_append, List.cons.injEq, true_and] at h
    exact h.symm
  rw [hsadd rfl rfl, hadded]
  rfl

/-! ## `SRem` -/

/-- The inner loop of `SRem`, past a part of the slice that does not hold the
member: the first occurrence of the member in the rest is taken out, and
counted. -/
theorem scan_from (member : String) (count : Nat) (rest : List String) :
    ∀ pre : List String, member ∉ pre →
      SRem.scan member (pre ++ rest) count pre.length rest
        = (pre ++ rest.erase member, count + if member ∈ rest then 1 else 0) := by
  induction rest with
  | nil =>
    intro pre _
    simp [SRem.scan]
  | cons set rest ih =>
    intro pre hpre
    by_cases h : set = member
    · subst h
      simp [SRem.scan]
    · have hne : ¬ member = set := fun h' => h h'.symm
      have hpre' : member ∉ pre ++ [set] := by
        simp [hpre, hne]
      have hstep := ih (pre ++ [set]) hpre'
      simp only [List.append_assoc, List.singleton_append, List.length_append,
        List.length_singleton] at hstep
      have herase : (set :: rest).erase member = set :: rest.erase member := by
        rw [List.erase_cons_tail]
        simpa using h
      simp only [SRem.scan, h, if_false, hstep, herase, List.mem_cons, hne, false_or]

/-- The inner loop of `SRem` takes the first occurrence of the member out of
the slice, and counts it. -/
theorem scan_erase (member : String) (sets : List String) (count : Nat) :
    SRem.scan member sets count 0 sets
      = (sets.erase member, count + if member ∈ sets then 1 else 0) := by
  have h := scan_from member count sets [] (List.not_mem_nil member)
  simpa using h

/-- The outer loop of `SRem` takes out, for each member of the argument in
turn, its first occurrence in the slice. -/
theorem loop_erase (sets : List String) (members : List String) :
    SRem.loop sets members
      = members.foldl
          (fun (state : List String × Nat) member =>
            (state.1.erase member, state.2 + if member ∈ state.1 then 1 else 0))
          (sets, 0) := by
  simp only [SRem.loop, scan_erase]

/-- Taking the first occurrences out of a slice without repeats, from any
count: what is left are the elements that are not in the argument, in their
order, and the count has gone up by the number of elements taken out. -/
theorem erase_all_filter (members : List String) :
    ∀ (sets : List String) (count : Nat), sets.Nodup →
      (members.foldl
          (fun (state : List String × Nat) member =>
            (state.1.erase member, state.2 + if member ∈ state.1 then 1 else 0))
          (sets, count)).1
        = sets.filter (fun x => x ∉ members) ∧
      (members.foldl
          (fun (state : List String × Nat) member =>
            (state.1.erase member, state.2 + if member ∈ state.1 then 1 else 0))
          (sets, count)).2
          + (sets.filter (fun x => x ∉ members)).length
        = count + sets.length := by
  induction members with
  | nil =>
    intro sets count _
    simp
  | cons member members ih =>
    intro sets count hnodup
    rw [List.foldl_cons]
    obtain ⟨h1, h2⟩ := ih (sets.erase member) (count + if member ∈ sets then 1 else 0)
      (hnodup.erase member)
    have hfilter : (sets.erase member).filter (fun x => x ∉ members)
        = sets.filter (fun x => x ∉ member :: members) := by
      rw [hnodup.erase_eq_filter, List.filter_filter]
      refine List.filter_congr ?_
      intro x _
      by_cases hx : x = member <;> simp [hx]
    rw [hfilter] at h1 h2
    refine ⟨h1, ?_⟩
    rw [h2]
    by_cases hm : member ∈ sets
    · have := List.length_erase_of_mem hm
      have hpos : 0 < sets.length := List.length_pos_of_mem hm
      simp only [hm, if_true, this]
      omega
    · simp [hm, List.erase_of_not_mem hm]

/-- C12: when the lookups of `SRem` give a record and a stored member list
without repeats, `SRem` replies, without error, with the Integer message of the
number of distinct elements of the argument that were in the stored list, and
the payload it writes to the record is the stored list without the elements of
the argument, the others in their order. -/
theorem SRem_removes {Database : Type}
    (GetDatabase : Nat → Except Error Database)
    (GetSetRecord : Database → String → Except Error (Record × List String))
    (ctxID : Nat) (key : String) (members : List String)
    (db : Database) (record : Record) (sets : List String)
    (hdb : GetDatabase ctxID = .ok db) (hrec : GetSetRecord db key = .ok (record, sets))
    (hnodup : sets.Nodup) :
    SRem GetDatabase GetSetRecord ctxID key members
      = ((some (.integer ((members.dedup.filter (fun x => x ∈ sets)).length : Int)), none),
         some { record with Data := sets.filter (fun x => x ∉ members) }) := by
  obtain ⟨h1, h2⟩ := erase_all_filter members sets 0 hnodup
  rw [← loop_erase] at h1 h2
  have hsplit : sets.length
      = (sets.filter (fun x => x ∈ members)).length
        + (sets.filter (fun x => x ∉ members)).length := by
    have h := List.length_eq_countP_add_countP (fun x => decide (x ∈ members)) sets
    simpa [List.countP_eq_length_filter] using h
  have hsame : (members.dedup.filter (fun x => x ∈ sets)).length
      = (sets.filter (fun x => x ∈ members)).length := by
    refine length_eq_of_nodup_of_mem_iff _ _ ((List.nodup_dedup members).filter _)
      (hnodup.filter _) ?_
    intro x
    simp [and_comm]
  have hcount : (SRem.loop sets members).2
      = (members.dedup.filter (fun x => x ∈ sets)).length := by
    omega
  simp only [SRem, hdb, hrec, h1, hcount, NewIntegerMessage]

/-- C12, on the stored list `a b c d` and the argument `c x a c`: `SRem`
replies 2, and `b d` is written to the record. -/
theorem SRem_removes_witness :
    (["a", "b", "c", "d"] : List String).Nodup ∧
    SRem (fun _ => Except.ok ())
        (fun _ _ => Except.ok (({ Data := [] } : Record), ["a", "b", "c", "d"]))
        0 "key" ["c", "x", "a", "c"]
      = ((some (.integer 2), none), some { Data := ["b", "d"] }) :=
  ⟨by decide,
   (SRem_removes (fun _ => Except.ok ())
      (fun _ _ => Except.ok (({ Data := [] } : Record), ["a", "b", "c", "d"]))
      0 "key" ["c", "x", "a", "c"] () { Data := [] } ["a", "b", "c", "d"] rfl rfl
      (by decide)).trans (by rfl)⟩

/-! ## The members of a set have no repeats -/

/-- C13: a set reached from `NewSet()` by any calls of `Add`, whatever their
arguments, has no member twice. -/
theorem reachable_nodup (set : Set) (h : Reachable set) : set.members.Nodup := by
  induction h with
  | new => exact List.nodup_nil
  | add set members _ ih =>
    obtain ⟨added, hadd, hnodup, hmem, _⟩ := Add_appends set members
    rw [hadd]
    refine List.nodup_append.mpr ⟨ih, hnodup, ?_⟩
    intro x hx hx'
    exact ((hmem x).mp hx').2 hx

/-- C13, on the set reached by `Add(a, b, a)` and then `Add(b, c, c)`. -/
theorem reachable_nodup_witness :
    Reachable (((NewSet.Add ["a", "b", "a"]).2.Add ["b", "c", "c"]).2) ∧
    (((NewSet.Add ["a", "b", "a"]).2.Add ["b", "c", "c"]).2).members.Nodup :=
  ⟨Reachable.add _ _ (Reachable.add _ _ Reachable.new),
   reachable_nodup _ (Reachable.add _ _ (Reachable.add _ _ Reachable.new))⟩

end server

end Redis
